import Mathlib

/-!
Shallow embedding, in Lean 4, of the update-cycle core of the
`tinydesk-tracker` repository, together with theorems settling the frozen
claims about its specification.

Source files embedded:
* `tinydesk_tracker/scheduler.py` — `normalize_cron_expression`,
  `compute_next_update_timestamp`, `_parse_update_schedule`;
* `tinydesk_tracker/database.py` — the table-backed lock
  (`acquire_update_lock` / `release_update_lock`), `save_video` with its
  in-transaction history prune, `set_metadata`;
* `tinydesk_tracker/tracker.py` — the statistics-ingestion loop body of
  `fetch_all_videos`, `update_historical_data`, and `update`.

Python `dict`s from the external API are modelled as structures of
`Option`-valued fields (`none` = key absent), SQL `NULL` as `Option.none`,
database tables as association lists, and machine integers as `Int`
(SQLite integers are arbitrary-precision signed; no overflow is relevant
here).  Exceptions are modelled with `Except` / explicit error components.
The external collaborators (the `croniter` library and the YouTube HTTP
client) are not code of this repository; where a claim needs them they
appear as explicit function parameters or as `Except`-valued oracles.
-/

/-! ### Scheduler: cron-expression normalization (`scheduler.py`, lines 19-32)

Python's `expr.split()` splits on runs of whitespace and drops empty
pieces; `List.splitOnP Char.isWhitespace` followed by dropping empty
pieces is exactly that. -/

/-- Whitespace tokenization of a string: the model of Python
`[p for p in expr.split() if p]` (the comprehension's filter is redundant,
`split()` already drops empty pieces). -/
def tokenize (s : String) : List String :=
  ((s.toList.splitOnP Char.isWhitespace).filter (· ≠ [])).map (fun cs => String.mk cs)

/-- Join a list of tokens with single spaces: the model of Python
`" ".join(parts)`. -/
def joinSp (parts : List String) : String :=
  String.mk (List.intercalate [' '] (parts.map String.toList))

/-- Model of `scheduler.normalize_cron_expression` (scheduler.py lines
19-32): pad 3- or 4-field cron expressions with `*`, truncate 5- or
6-field ones to 5 fields, and reject anything else. -/
def normalize_cron_expression (expr : String) : Option String :=
  let parts := tokenize expr
  if parts.length < 3 then none
  else if parts.length = 3 then some (joinSp (parts ++ ["*", "*"]))
  else if parts.length = 4 then some (joinSp (parts ++ ["*"]))
  else if parts.length = 5 ∨ parts.length = 6 then some (joinSp (parts.take 5))
  else none

/-- Splitting an intercalation of separator-free chunks on the separator
predicate recovers the chunks. -/
theorem splitOnP_intercalate_sep {α : Type} (p : α → Bool) (sep : α) (hsep : p sep) :
    ∀ ws : List (List α), ws ≠ [] → (∀ w ∈ ws, ∀ c ∈ w, ¬ p c) →
      (List.intercalate [sep] ws).splitOnP p = ws := by
  intro ws
  induction ws with
  | nil => intro h; exact absurd rfl h
  | cons w ws ih =>
    intro _ hfree
    cases ws with
    | nil =>
      have : List.intercalate [sep] [w] = w := by simp [List.intercalate]
      rw [this]
      exact List.splitOnP_eq_single _ _ (hfree w (by simp))
    | cons w' ws' =>
      have hrest : List.intercalate [sep] (w :: w' :: ws') =
          w ++ sep :: List.intercalate [sep] (w' :: ws') := by
        simp [List.intercalate, List.intersperse]
      rw [hrest, List.splitOnP_first _ _ (hfree w (by simp)) sep hsep]
      rw [ih (by simp) (fun u hu => hfree u (by simp [hu]))]

/-- Tokenizing a space-join of nonempty whitespace-free tokens recovers the
tokens. -/
theorem tokenize_joinSp (parts : List String) (hne : parts ≠ [])
    (hok : ∀ t ∈ parts, t.toList ≠ [] ∧ ∀ c ∈ t.toList, ¬ c.isWhitespace) :
    tokenize (joinSp parts) = parts := by
  unfold tokenize joinSp
  have htl : (String.mk (List.intercalate [' '] (parts.map String.toList))).toList =
      List.intercalate [' '] (parts.map String.toList) := rfl
  rw [htl]
  rw [splitOnP_intercalate_sep Char.isWhitespace ' ' (by decide) _
    (by simpa using hne)
    (by
      intro w hw c hc
      obtain ⟨t, ht, rfl⟩ := List.mem_map.mp hw
      exact (hok t ht).2 c hc)]
  have hfilter : (parts.map String.toList).filter (· ≠ []) = parts.map String.toList := by
    apply List.filter_eq_self.mpr
    intro w hw
    obtain ⟨t, ht, rfl⟩ := List.mem_map.mp hw
    simpa using (hok t ht).1
  rw [hfilter, List.map_map]
  have : (fun cs => String.mk cs) ∘ String.toList = id := by
    funext s; rfl
  rw [this, List.map_id]

/-- Every chunk produced by `List.splitOnP` contains no element satisfying
the splitting predicate. -/
theorem mem_splitOnP_sep_free {α : Type} (p : α → Bool) :
    ∀ (l : List α), ∀ w ∈ l.splitOnP p, ∀ c ∈ w, ¬ p c := by
  intro l
  induction l with
  | nil =>
    intro w hw
    simp only [List.splitOnP_nil, List.mem_singleton] at hw
    subst hw; simp
  | cons a l ih =>
    intro w hw
    rw [List.splitOnP_cons] at hw
    by_cases ha : p a
    · rw [if_pos ha] at hw
      rcases List.mem_cons.mp hw with hw | hw
      · subst hw; simp
      · exact ih w hw
    · rw [if_neg ha] at hw
      obtain ⟨h, t, hht⟩ : ∃ h t, l.splitOnP p = h :: t := by
        cases hlt : l.splitOnP p with
        | nil => exact absurd hlt (List.splitOnP_ne_nil p l)
        | cons h t => exact ⟨h, t, rfl⟩
      rw [hht] at hw
      simp only [List.modifyHead, List.mem_cons] at hw
      rcases hw with hw | hw
      · subst hw
        intro c hc
        rcases List.mem_cons.mp hc with hc | hc
        · subst hc; exact ha
        · exact ih h (by rw [hht]; simp) c hc
      · exact ih w (by rw [hht]; simp [hw])

/-- Every token produced by `tokenize` is nonempty and whitespace-free. -/
theorem tokenize_tokens_ok (s : String) :
    ∀ t ∈ tokenize s, t.toList ≠ [] ∧ ∀ c ∈ t.toList, ¬ c.isWhitespace := by
  intro t ht
  unfold tokenize at ht
  obtain ⟨cs, hcs, rfl⟩ := List.mem_map.mp ht
  have hmem := List.mem_filter.mp hcs
  refine ⟨by simpa using hmem.2, ?_⟩
  intro c hc
  exact mem_splitOnP_sep_free Char.isWhitespace s.toList cs hmem.1 c hc

/-- Tokens surviving padding/truncation in `normalize_cron_expression` are
nonempty and whitespace-free. -/
theorem normalize_parts_ok (s : String) (extra : List String)
    (hextra : ∀ t ∈ extra, t.toList ≠ [] ∧ ∀ c ∈ t.toList, ¬ c.isWhitespace) :
    ∀ t ∈ tokenize s ++ extra, t.toList ≠ [] ∧ ∀ c ∈ t.toList, ¬ c.isWhitespace := by
  intro t ht
  rcases List.mem_append.mp ht with ht | ht
  · exact tokenize_tokens_ok s t ht
  · exact hextra t ht

/-- C9: for every cron expression string with 3 to 6 whitespace-separated
tokens, `normalize_cron_expression` succeeds and its result has exactly 5
whitespace-separated tokens (3 tokens get two appended `*` fields, 4 get
one, 5 or 6 are truncated to the first 5); with fewer than 3 tokens it
returns `none`. -/
theorem normalize_cron_token_counts (s : String) :
    (3 ≤ (tokenize s).length → (tokenize s).length ≤ 6 →
      ∃ out, normalize_cron_expression s = some out ∧ (tokenize out).length = 5) ∧
    ((tokenize s).length < 3 → normalize_cron_expression s = none) := by
  constructor
  · intro h3 h6
    have star_ok : ∀ t ∈ (["*", "*"] : List String),
        t.toList ≠ [] ∧ ∀ c ∈ t.toList, ¬ c.isWhitespace := by decide
    have star1_ok : ∀ t ∈ (["*"] : List String),
        t.toList ≠ [] ∧ ∀ c ∈ t.toList, ¬ c.isWhitespace := by decide
    unfold normalize_cron_expression
    rcases Nat.lt_or_ge (tokenize s).length 5 with h5 | h5
    · rcases Nat.lt_or_ge (tokenize s).length 4 with h4 | h4
      · have hlen : (tokenize s).length = 3 := by omega
        refine ⟨joinSp (tokenize s ++ ["*", "*"]), ?_, ?_⟩
        · simp [hlen]
        · rw [tokenize_joinSp _ (by simp) (normalize_parts_ok s _ star_ok)]
          simp [hlen]
      · have hlen : (tokenize s).length = 4 := by omega
        refine ⟨joinSp (tokenize s ++ ["*"]), ?_, ?_⟩
        · simp [hlen]
        · rw [tokenize_joinSp _ (by simp) (normalize_parts_ok s _ star1_ok)]
          simp [hlen]
    · have hlen : (tokenize s).length = 5 ∨ (tokenize s).length = 6 := by omega
      refine ⟨joinSp ((tokenize s).take 5), ?_, ?_⟩
      · rcases hlen with hlen | hlen <;> simp [hlen]
      · have htake_ok : ∀ t ∈ (tokenize s).take 5,
            t.toList ≠ [] ∧ ∀ c ∈ t.toList, ¬ c.isWhitespace := by
          intro t ht
          exact tokenize_tokens_ok s t (List.take_subset 5 _ ht)
        have hlen5 : ((tokenize s).take 5).length = 5 := by
          rw [List.length_take]; omega
        have hne : (tokenize s).take 5 ≠ [] := by
          intro hcontra
          rw [hcontra] at hlen5
          exact absurd hlen5 (by decide)
        rw [tokenize_joinSp _ hne htake_ok]
        exact hlen5
  · intro h
    unfold normalize_cron_expression
    simp [h]

/-- Witness for `normalize_cron_token_counts` at concrete inputs: a
4-token expression normalizes to 5 tokens, a 1-token expression is
rejected. -/
theorem normalize_cron_token_counts_witness :
    (∃ out, normalize_cron_expression "0 12 * *" = some out ∧ (tokenize out).length = 5) ∧
    normalize_cron_expression "nope" = none := by
  refine ⟨(normalize_cron_token_counts "0 12 * *").1 (by decide) (by decide), ?_⟩
  exact (normalize_cron_token_counts "nope").2 (by decide)

/-! ### Scheduler: `compute_next_update_timestamp` (`scheduler.py`, lines 35-66)

Python naive `datetime` values are modelled by `DT`: a day index plus
wall-clock fields.  Real `datetime` objects always carry normalized fields
(`DT.WF`), and comparison of normalized values is comparison of the total
microsecond offset `DT.toMicros`.  `int(dt.timestamp())` drops the
sub-second part, which for the nonnegative instants at issue is
`DT.toTimestamp`.  The `croniter` library is an external collaborator and
enters the model as an explicit `cronNext` function parameter; returning
`none` models both a failed construction and a thrown `get_next`. -/

/-- Model of a Python naive `datetime`: day index since an arbitrary epoch
plus wall-clock fields. -/
structure DT where
  day : Int
  hour : Int
  minute : Int
  second : Int
  micro : Int
deriving DecidableEq, Repr

/-- Total microsecond offset of a `DT`; Python `datetime` comparison on
normalized values coincides with comparing this offset. -/
def DT.toMicros (d : DT) : Int :=
  ((((d.day * 24 + d.hour) * 60 + d.minute) * 60 + d.second) * 1000000) + d.micro

/-- Model of `int(dt.timestamp())`: whole seconds, sub-second part
dropped. -/
def DT.toTimestamp (d : DT) : Int :=
  ((d.day * 24 + d.hour) * 60 + d.minute) * 60 + d.second

/-- Field normalization, as guaranteed for every real Python `datetime`
value (for example `datetime.now()`). -/
def DT.WF (d : DT) : Prop :=
  0 ≤ d.hour ∧ d.hour ≤ 23 ∧ 0 ≤ d.minute ∧ d.minute ≤ 59 ∧
  0 ≤ d.second ∧ d.second ≤ 59 ∧ 0 ≤ d.micro ∧ d.micro ≤ 999999

instance (d : DT) : Decidable d.WF := by unfold DT.WF; infer_instance

/-- Scheduler-relevant projection of `config.Settings`: the three fields
`compute_next_update_timestamp` reads. -/
structure Settings where
  update_cron : String
  update_schedule : String
  update_interval_hours : Rat
deriving DecidableEq

/-- Model of Python `int(str)` (scheduler.py line 61): strip surrounding
whitespace, allow one optional sign, then a nonempty digit run.  (CPython
additionally accepts `_` digit grouping; no caller here produces it.) -/
def pyIntParse (s : String) : Option Int :=
  let stripped := ((s.toList.dropWhile Char.isWhitespace).reverse.dropWhile
    Char.isWhitespace).reverse
  let digits := fun (cs : List Char) =>
    if cs ≠ [] ∧ cs.all Char.isDigit then
      some (cs.foldl (fun a c => a * 10 + (c.toNat - '0'.toNat : Nat)) 0)
    else none
  match stripped with
  | '+' :: rest => (digits rest).map (fun n => (n : Int))
  | '-' :: rest => (digits rest).map (fun n => -(n : Int))
  | rest => (digits rest).map (fun n => (n : Int))

/-- Model of Python `s.split(sep)` with an explicit one-character
separator: split at every occurrence, keeping empty pieces. -/
def pySplitChar (sep : Char) (s : String) : List String :=
  (s.toList.splitOnP (· == sep)).map (fun cs => String.mk cs)

/-- Model of Python `s.strip()`: drop leading and trailing whitespace. -/
def pyStrip (s : String) : String :=
  String.mk (((s.toList.dropWhile Char.isWhitespace).reverse.dropWhile
    Char.isWhitespace).reverse)

/-- Loop body of `scheduler._parse_update_schedule` for one stripped
token: `hour, minute = entry.split(":")` followed by
`now.replace(hour=int(hour), minute=int(minute), second=0, microsecond=0)`
and the roll to tomorrow when the candidate is not strictly after `now`;
`none` models every exception caught by the loop's `except` (`ValueError`
from unpacking or `int`, out-of-range `replace`). -/
def schedule_token_candidate (now : DT) (entry : String) : Option DT :=
  match pySplitChar ':' entry with
  | [hs, ms] =>
    match pyIntParse hs, pyIntParse ms with
    | some h, some m =>
      if 0 ≤ h ∧ h ≤ 23 ∧ 0 ≤ m ∧ m ≤ 59 then
        let candidate : DT := ⟨now.day, h, m, 0, 0⟩
        if candidate.toMicros ≤ now.toMicros then
          some { candidate with day := candidate.day + 1 }
        else some candidate
      else none
    | _, _ => none
  | _ => none

/-- Model of `scheduler._parse_update_schedule` (scheduler.py lines
56-66): split the configured string on commas, strip each token, drop
empty tokens, and yield a candidate per valid token, skipping the rest. -/
def parse_update_schedule (schedule_str : String) (now : DT) : List DT :=
  let times := ((pySplitChar ',' schedule_str).map pyStrip).filter (· ≠ "")
  times.filterMap (schedule_token_candidate now)

/-- Model of the `croniter` attempt in `compute_next_update_timestamp`
(scheduler.py lines 38-44): the expression is normalized only when the
configured string is truthy (nonempty), and the external `cronNext`
oracle stands for `croniter(...).get_next(datetime)`, `none` modelling a
thrown exception.  A normalized expression is never the empty string, so
Python's truthiness test on `cron_expr` is the `Option` match. -/
def cron_branch (cronNext : String → DT → Option DT) (settings : Settings)
    (reference : DT) : Option DT :=
  (if settings.update_cron ≠ "" then normalize_cron_expression settings.update_cron
   else none).bind (fun ce => cronNext ce reference)

/-- Model of `min(...)` over a nonempty list of datetimes: Python keeps
the first minimum. -/
def minDT (c : DT) (cs : List DT) : DT :=
  cs.foldl (fun a b => if b.toMicros < a.toMicros then b else a) c

/-- Model of the interval fallback (scheduler.py lines 51-53):
`base + timedelta(hours=interval)` where `base` is the last update (when
truthy, i.e. nonzero) and otherwise `reference`; the result is truncated
to whole seconds.  Arithmetic is modelled in `Rat` in place of Python's
float. -/
def intervalNext (interval_hours : Rat) (last_update_ts : Int) (reference : DT) : Int :=
  let base : Rat := if last_update_ts ≠ 0 then (last_update_ts : Rat)
    else (reference.toTimestamp : Rat) + (reference.micro : Rat) / 1000000
  let next : Rat := base + interval_hours * 3600
  if 0 ≤ next then next.floor else -((-next).floor)

/-- Model of `scheduler.compute_next_update_timestamp` (scheduler.py
lines 35-53): cron first, then fixed daily times, then the interval
fallback. -/
def compute_next_update_timestamp (cronNext : String → DT → Option DT)
    (settings : Settings) (last_update_ts : Int) (reference : DT) : Int :=
  match cron_branch cronNext settings reference with
  | some next_dt => next_dt.toTimestamp
  | none =>
    match parse_update_schedule settings.update_schedule reference with
    | [] => intervalNext settings.update_interval_hours last_update_ts reference
    | c :: cs => (minDT c cs).toTimestamp

/-- C7: for every configuration whose cron expression is set,
syntactically normalizable, and accepted by the cron library (modelled by
the `cronNext` oracle returning a fire time, which the library guarantees
to be strictly after `now`), `compute_next_update_timestamp` returns
exactly that cron-derived fire time, strictly after `now`, whatever the
fixed-time list, the interval-hours setting and the last-update value are
— they are ignored entirely. -/
theorem compute_next_cron_ignores_rest (cronNext : String → DT → Option DT)
    (cron ce : String) (reference d : DT)
    (hcron : cron ≠ "") (hnorm : normalize_cron_expression cron = some ce)
    (hlib : cronNext ce reference = some d)
    (hafter : reference.toTimestamp < d.toTimestamp) :
    ∀ (sched : String) (ih : Rat) (last : Int),
      compute_next_update_timestamp cronNext ⟨cron, sched, ih⟩ last reference =
        d.toTimestamp ∧
      reference.toTimestamp <
        compute_next_update_timestamp cronNext ⟨cron, sched, ih⟩ last reference := by
  intro sched ih last
  have hcb : cron_branch cronNext ⟨cron, sched, ih⟩ reference = some d := by
    unfold cron_branch
    simp only [hcron, ne_eq, not_false_eq_true, if_true, hnorm, Option.bind_some]
    exact hlib
  constructor
  · unfold compute_next_update_timestamp
    rw [hcb]
  · unfold compute_next_update_timestamp
    rw [hcb]
    exact hafter

/-- Witness for `compute_next_cron_ignores_rest`: the default cron
expression with an oracle firing one day later; the fixed-time list and
interval are present but ignored. -/
theorem compute_next_cron_ignores_rest_witness :
    compute_next_update_timestamp (fun _ _ => some ⟨1, 0, 0, 0, 0⟩)
      ⟨"*/30 * * * *", "07:00,19:30", 6⟩ 12345 ⟨0, 0, 0, 0, 0⟩ = 86400 ∧
    (0 : Int) < 86400 := by
  have h := compute_next_cron_ignores_rest (fun _ _ => some ⟨1, 0, 0, 0, 0⟩)
    "*/30 * * * *" "*/30 * * * *" ⟨0, 0, 0, 0, 0⟩ ⟨1, 0, 0, 0, 0⟩
    (by decide) (by decide) rfl (by decide) "07:00,19:30" 6 12345
  exact ⟨h.1, by decide⟩

/-- Python's `min` over a nonempty list returns an element of the list. -/
theorem minDT_mem (c : DT) (cs : List DT) : minDT c cs ∈ c :: cs := by
  induction cs generalizing c with
  | nil => simp [minDT]
  | cons b bs ih =>
    unfold minDT
    rw [List.foldl_cons]
    by_cases hb : b.toMicros < c.toMicros
    · rw [if_pos hb]
      have := ih b
      simp only [List.mem_cons] at this ⊢
      tauto
    · rw [if_neg hb]
      have := ih c
      simp only [List.mem_cons] at this ⊢
      tauto

/-- Python's `min` over a nonempty list is a lower bound. -/
theorem minDT_le (c : DT) (cs : List DT) :
    ∀ x ∈ c :: cs, (minDT c cs).toMicros ≤ x.toMicros := by
  induction cs generalizing c with
  | nil =>
    intro x hx
    rcases List.mem_cons.mp hx with hx | hx
    · subst hx; exact le_refl _
    · exact absurd hx (List.not_mem_nil x)
  | cons b bs ih =>
    intro x hx
    have hstep : minDT c (b :: bs) = minDT (if b.toMicros < c.toMicros then b else c) bs := by
      unfold minDT
      rw [List.foldl_cons]
    rw [hstep]
    have hminc : (minDT (if b.toMicros < c.toMicros then b else c) bs).toMicros ≤
        (if b.toMicros < c.toMicros then b else c).toMicros :=
      ih _ _ (by simp)
    rcases List.mem_cons.mp hx with hx | hx
    · rw [hx]
      by_cases hb : b.toMicros < c.toMicros
      · rw [if_pos hb] at hminc ⊢
        exact le_trans hminc (le_of_lt hb)
      · rw [if_neg hb] at hminc ⊢
        exact hminc
    · rcases List.mem_cons.mp hx with hx | hx
      · rw [hx]
        by_cases hb : b.toMicros < c.toMicros
        · rw [if_pos hb] at hminc ⊢
          exact hminc
        · rw [if_neg hb] at hminc ⊢
          exact le_trans hminc (le_of_not_lt hb)
      · exact ih _ x (by simp [hx])

/-- Every candidate produced by `parse_update_schedule` is strictly in the
future of a normalized `now`: a wall-clock time not strictly after `now`
is pushed to the next day. -/
theorem parse_update_schedule_future (schedule_str : String) (now : DT)
    (hwf : now.WF) :
    ∀ x ∈ parse_update_schedule schedule_str now,
      now.toMicros < x.toMicros ∧ x.second = 0 ∧ x.micro = 0 := by
  intro x hx
  unfold parse_update_schedule at hx
  obtain ⟨entry, _, hentry⟩ := List.mem_filterMap.mp hx
  unfold schedule_token_candidate at hentry
  obtain ⟨hwf1, hwf2, hwf3, hwf4, hwf5, hwf6, hwf7, hwf8⟩ := hwf
  split at hentry
  case h_2 => exact absurd hentry (by simp)
  case h_1 hs ms _ =>
    split at hentry
    case h_2 => exact absurd hentry (by simp)
    case h_1 h m _ _ =>
      split at hentry
      case isFalse => exact absurd hentry (by simp)
      case isTrue hrange =>
        simp only at hentry
        split at hentry
        case isTrue hle =>
          have hx' : x = ⟨now.day + 1, h, m, 0, 0⟩ := by
            cases hentry; rfl
          subst hx'
          refine ⟨?_, rfl, rfl⟩
          simp only [DT.toMicros] at hle ⊢
          omega
        case isFalse hle =>
          have hx' : x = ⟨now.day, h, m, 0, 0⟩ := by
            cases hentry; rfl
          subst hx'
          exact ⟨lt_of_not_le hle, rfl, rfl⟩

/-- C8 (amended): when the cron branch yields nothing, the calculator
returns, over the candidates derived from the valid `HH:MM` tokens, the
minimum next occurrence of that wall-clock time strictly after `now`
(a token whose occurrence today is not strictly after `now` — including
one equal to the current minute — rolls to tomorrow); invalid tokens are
skipped without failing, and with zero valid tokens the calculator falls
through to interval scheduling. -/
theorem compute_next_schedule_branch (cronNext : String → DT → Option DT)
    (settings : Settings) (last : Int) (reference : DT)
    (hwf : reference.WF)
    (hcb : cron_branch cronNext settings reference = none) :
    (parse_update_schedule settings.update_schedule reference = [] →
      compute_next_update_timestamp cronNext settings last reference =
        intervalNext settings.update_interval_hours last reference) ∧
    (∀ c cs, parse_update_schedule settings.update_schedule reference = c :: cs →
      ∃ m ∈ c :: cs,
        compute_next_update_timestamp cronNext settings last reference =
          m.toTimestamp ∧
        (∀ x ∈ c :: cs, m.toMicros ≤ x.toMicros) ∧
        reference.toMicros < m.toMicros) := by
  constructor
  · intro hnil
    unfold compute_next_update_timestamp
    rw [hcb, hnil]
  · intro c cs hcons
    refine ⟨minDT c cs, minDT_mem c cs, ?_, ?_, ?_⟩
    · unfold compute_next_update_timestamp
      rw [hcb, hcons]
    · exact minDT_le c cs
    · have hmem := minDT_mem c cs
      rw [← hcons] at hmem
      exact (parse_update_schedule_future settings.update_schedule reference hwf
        (minDT c cs) hmem).1

/-- Witness for `compute_next_schedule_branch`: with an empty cron
expression and the list `"07:00,19:30"` at midnight, both candidates are
today and the minimum is 07:00. -/
theorem compute_next_schedule_branch_witness :
    ∃ m ∈ parse_update_schedule "07:00,19:30" ⟨0, 0, 0, 0, 0⟩,
      compute_next_update_timestamp (fun _ _ => none)
        ⟨"", "07:00,19:30", 6⟩ 0 ⟨0, 0, 0, 0, 0⟩ = m.toTimestamp ∧
      (∀ x ∈ parse_update_schedule "07:00,19:30" ⟨0, 0, 0, 0, 0⟩,
        m.toMicros ≤ x.toMicros) ∧
      DT.toMicros ⟨0, 0, 0, 0, 0⟩ < m.toMicros := by
  have h := compute_next_schedule_branch (fun _ _ => none)
    ⟨"", "07:00,19:30", 6⟩ 0 ⟨0, 0, 0, 0, 0⟩ (by decide) (by decide)
  have hcons : parse_update_schedule "07:00,19:30" ⟨0, 0, 0, 0, 0⟩ =
      [⟨0, 7, 0, 0, 0⟩, ⟨0, 19, 30, 0, 0⟩] := by decide
  obtain ⟨m, hm, hrest⟩ := h.2 ⟨0, 7, 0, 0, 0⟩ [⟨0, 19, 30, 0, 0⟩] hcons
  exact ⟨m, by rw [hcons]; exact hm, by rw [hcons]; exact hrest⟩

/-- Modelled from the claim's words, for comparison with the code: the
next occurrence of the wall-clock time `HH:MM` on or after `now` (using
tomorrow only when the time-of-day has already passed today). -/
def claimNextOccurrence (h m : Int) (now : DT) : DT :=
  let candidate : DT := ⟨now.day, h, m, 0, 0⟩
  if candidate.toMicros < now.toMicros then { candidate with day := candidate.day + 1 }
  else candidate

/-- C8 counterexample: at exactly 07:00:00.000000 with the fixed-time
list `"07:00"` and no cron, the code rolls to tomorrow (07:00 the next
day, timestamp 111600 in the model) while the claim's "next occurrence on
or after now" is now itself (timestamp 25200); the claim as stated is
false at this input. -/
theorem compute_next_schedule_on_or_after_false :
    compute_next_update_timestamp (fun _ _ => none) ⟨"", "07:00", 6⟩ 0
      ⟨0, 7, 0, 0, 0⟩ = 111600 ∧
    (claimNextOccurrence 7 0 ⟨0, 7, 0, 0, 0⟩).toTimestamp = 25200 ∧
    (111600 : Int) ≠ 25200 := by decide

/-! ### Database model (`database.py`)

The SQLite tables become association lists; rows keyed by a `TEXT PRIMARY
KEY` have at most one entry per key, which the operations preserve.  The
`history` table's `AUTOINCREMENT` id becomes `nextHistoryId`.  Each model
function is one `engine.begin()` transaction of the source. -/

/-- Row of the `videos` table (minus its key `video_id`). -/
structure Video where
  title : String
  current_views : Int
  last_updated : Int
  published_at : Option String
deriving DecidableEq, Repr

/-- Row of the `history` table. -/
structure HistoryRow where
  id : Nat
  video_id : String
  timestamp : Int
  view_count : Int
deriving DecidableEq, Repr

/-- Row of the `locks` table (minus its key). -/
structure LockRow where
  owner : String
  expires_at : Int
deriving DecidableEq, Repr

/-- Whole storage state. -/
structure Storage where
  videos : List (String × Video)
  history : List HistoryRow
  nextHistoryId : Nat
  metadata : List (String × String)
  locks : List (String × LockRow)
deriving DecidableEq, Repr

/-- The fixed lock name `self._lock_name` (database.py line 24). -/
def lockName : String := "tinydesk_update_lock"

/-- Lookup by primary key in a keyed table; the model of
`SELECT ... WHERE key = k`. -/
def findAssoc {β : Type} (l : List (String × β)) (k : String) : Option β :=
  match l with
  | [] => none
  | (a, b) :: t => if a = k then some b else findAssoc t k

/-- Update-in-place of every entry of an association list carrying key
`k`; the model of SQL `UPDATE ... WHERE key = k` / upsert conflict
resolution. -/
def mapAssoc {β : Type} (l : List (String × β)) (k : String) (f : β → β) :
    List (String × β) :=
  l.map (fun p => if p.1 = k then (k, f p.2) else p)

/-- Model of `INSERT ... ON CONFLICT(key) DO UPDATE SET value =
EXCLUDED.value` upsert as used by `set_metadata`. -/
def setAssoc {β : Type} (l : List (String × β)) (k : String) (v : β) :
    List (String × β) :=
  if (findAssoc l k).isSome then mapAssoc l k (fun _ => v) else l ++ [(k, v)]

theorem findAssoc_cons {β : Type} (a : String) (b : β) (t : List (String × β)) (k : String) :
    findAssoc ((a, b) :: t) k = if a = k then some b else findAssoc t k := rfl

theorem mapAssoc_cons {β : Type} (a : String) (b : β) (t : List (String × β)) (k : String)
    (f : β → β) :
    mapAssoc ((a, b) :: t) k f = (if a = k then (k, f b) else (a, b)) :: mapAssoc t k f := rfl

theorem findAssoc_mapAssoc_self {β : Type} (l : List (String × β)) (k : String) (f : β → β) :
    findAssoc (mapAssoc l k f) k = (findAssoc l k).map f := by
  induction l with
  | nil => rfl
  | cons p t ih =>
    obtain ⟨a, b⟩ := p
    rw [mapAssoc_cons, findAssoc_cons]
    by_cases ha : a = k
    · rw [if_pos ha, findAssoc_cons, if_pos rfl, if_pos ha]
      rfl
    · rw [if_neg ha, findAssoc_cons, if_neg ha, if_neg ha]
      exact ih

theorem findAssoc_mapAssoc_other {β : Type} (l : List (String × β)) (k q : String)
    (f : β → β) (hq : q ≠ k) :
    findAssoc (mapAssoc l k f) q = findAssoc l q := by
  induction l with
  | nil => rfl
  | cons p t ih =>
    obtain ⟨a, b⟩ := p
    rw [mapAssoc_cons, findAssoc_cons]
    by_cases ha : a = k
    · rw [if_pos ha, findAssoc_cons, if_neg (fun h => hq h.symm), if_neg (by
        rw [ha]; exact fun h => hq h.symm)]
      exact ih
    · rw [if_neg ha, findAssoc_cons]
      by_cases haq : a = q
      · rw [if_pos haq, if_pos haq]
      · rw [if_neg haq, if_neg haq]
        exact ih

theorem findAssoc_append_single_self {β : Type} (l : List (String × β)) (k : String) (v : β)
    (h : findAssoc l k = none) :
    findAssoc (l ++ [(k, v)]) k = some v := by
  induction l with
  | nil => simp [findAssoc]
  | cons p t ih =>
    obtain ⟨a, b⟩ := p
    rw [findAssoc_cons] at h
    rw [List.cons_append, findAssoc_cons]
    by_cases ha : a = k
    · rw [if_pos ha] at h; exact absurd h (by simp)
    · rw [if_neg ha] at h ⊢
      exact ih h

theorem findAssoc_append_single_other {β : Type} (l : List (String × β)) (k q : String) (v : β)
    (hq : q ≠ k) :
    findAssoc (l ++ [(k, v)]) q = findAssoc l q := by
  induction l with
  | nil =>
    show findAssoc ((k, v) :: []) q = none
    rw [findAssoc_cons, if_neg (fun h => hq h.symm)]
    rfl
  | cons p t ih =>
    obtain ⟨a, b⟩ := p
    rw [List.cons_append, findAssoc_cons, findAssoc_cons]
    by_cases ha : a = q
    · rw [if_pos ha, if_pos ha]
    · rw [if_neg ha, if_neg ha]
      exact ih

theorem findAssoc_setAssoc_self {β : Type} (l : List (String × β)) (k : String) (v : β) :
    findAssoc (setAssoc l k v) k = some v := by
  unfold setAssoc
  by_cases h : (findAssoc l k).isSome
  · rw [if_pos h, findAssoc_mapAssoc_self]
    obtain ⟨w, hw⟩ := Option.isSome_iff_exists.mp h
    rw [hw]; rfl
  · rw [if_neg h]
    exact findAssoc_append_single_self l k v (Option.not_isSome_iff_eq_none.mp h)

theorem findAssoc_setAssoc_other {β : Type} (l : List (String × β)) (k q : String) (v : β)
    (hq : q ≠ k) :
    findAssoc (setAssoc l k v) q = findAssoc l q := by
  unfold setAssoc
  by_cases h : (findAssoc l k).isSome
  · rw [if_pos h, findAssoc_mapAssoc_other _ _ _ _ hq]
  · rw [if_neg h, findAssoc_append_single_other _ _ _ _ hq]

theorem findAssoc_eq_none_iff {β : Type} (l : List (String × β)) (k : String) :
    findAssoc l k = none ↔ ∀ p ∈ l, p.1 ≠ k := by
  induction l with
  | nil => simp [findAssoc]
  | cons p t ih =>
    obtain ⟨a, b⟩ := p
    rw [findAssoc_cons]
    by_cases ha : a = k
    · rw [if_pos ha]
      constructor
      · intro h; exact absurd h (by simp)
      · intro h; exact absurd ha (h (a, b) (by simp))
    · rw [if_neg ha, ih]
      constructor
      · intro h q hq
        rcases List.mem_cons.mp hq with hq | hq
        · subst hq; exact ha
        · exact h q hq
      · intro h q hq
        exact h q (List.mem_cons.mpr (Or.inr hq))

/-- Handle returned by the table-backed lock: the Python dict
`{"owner": owner}` (database.py line 177/190). -/
structure LockHandle where
  owner : String
deriving DecidableEq, Repr

/-- Model of the table-backed branch of `Database.acquire_update_lock`
(database.py lines 162-191), one transaction: try
`INSERT ... ON CONFLICT(key) DO NOTHING` (succeeds exactly when no row
with the lock name exists), then `UPDATE ... WHERE key = :k AND
expires_at < :now` (row count is positive exactly when the existing row
is expired strictly before `now`); `owner` is the caller's hostname and
`now + ttl` the new expiry. -/
def acquire_update_lock (st : Storage) (owner : String) (now ttl : Int) :
    Storage × Option LockHandle :=
  let expires := now + ttl
  match findAssoc st.locks lockName with
  | none =>
    ({ st with locks := st.locks ++ [(lockName, ⟨owner, expires⟩)] }, some ⟨owner⟩)
  | some row =>
    if row.expires_at < now then
      ({ st with locks := mapAssoc st.locks lockName (fun _ => ⟨owner, expires⟩) },
        some ⟨owner⟩)
    else (st, none)

/-- Model of the table-backed branch of `Database.release_update_lock`
(database.py lines 207-215): delete the row only when it still carries
the caller's owner token; with a falsy (empty) owner, delete by name
alone. -/
def release_update_lock (st : Storage) (handle : LockHandle) : Storage :=
  if handle.owner ≠ "" then
    { st with locks :=
        st.locks.filter (fun p => !(p.1 = lockName && p.2.owner = handle.owner)) }
  else
    { st with locks := st.locks.filter (fun p => !(p.1 = lockName)) }

/-- C3: for the table-based lock backend, when a lock row already exists,
`acquire_update_lock` succeeds if and only if the existing row's expiry
is strictly in the past relative to `now`; on success the row is
reclaimed with the caller's owner and the fresh expiry `now + ttl`
(without any explicit release having happened), and otherwise the call
returns `none` leaving storage untouched. -/
theorem acquire_lock_reclaim_iff (st : Storage) (owner : String) (now ttl : Int)
    (row : LockRow) (hrow : findAssoc st.locks lockName = some row) :
    ((acquire_update_lock st owner now ttl).2.isSome ↔ row.expires_at < now) ∧
    (row.expires_at < now →
      (acquire_update_lock st owner now ttl).2 = some ⟨owner⟩ ∧
      findAssoc (acquire_update_lock st owner now ttl).1.locks lockName =
        some ⟨owner, now + ttl⟩) ∧
    (¬ row.expires_at < now → acquire_update_lock st owner now ttl = (st, none)) := by
  have hacq : acquire_update_lock st owner now ttl =
      (if row.expires_at < now then
        ({ st with locks := mapAssoc st.locks lockName (fun _ => ⟨owner, now + ttl⟩) },
          some ⟨owner⟩)
      else (st, none)) := by
    unfold acquire_update_lock
    rw [hrow]
  by_cases hexp : row.expires_at < now
  · rw [hacq, if_pos hexp]
    refine ⟨by simp [hexp], fun _ => ⟨rfl, ?_⟩, fun h => absurd hexp h⟩
    simp only
    rw [findAssoc_mapAssoc_self, hrow]
    rfl
  · rw [hacq, if_neg hexp]
    exact ⟨by simp [hexp], fun h => absurd h hexp, fun _ => rfl⟩

/-- Witness for `acquire_lock_reclaim_iff`: a lock row expired at 100 is
reclaimed at `now = 101` with TTL 50, yielding expiry 151. -/
theorem acquire_lock_reclaim_iff_witness :
    ((acquire_update_lock ⟨[], [], 0, [], [(lockName, ⟨"other", 100⟩)]⟩
        "me" 101 50).2.isSome ↔ (100 : Int) < 101) ∧
    ((100 : Int) < 101 →
      (acquire_update_lock ⟨[], [], 0, [], [(lockName, ⟨"other", 100⟩)]⟩
        "me" 101 50).2 = some ⟨"me"⟩ ∧
      findAssoc (acquire_update_lock ⟨[], [], 0, [], [(lockName, ⟨"other", 100⟩)]⟩
        "me" 101 50).1.locks lockName = some ⟨"me", 151⟩) ∧
    (¬ (100 : Int) < 101 →
      acquire_update_lock ⟨[], [], 0, [], [(lockName, ⟨"other", 100⟩)]⟩ "me" 101 50 =
        (⟨[], [], 0, [], [(lockName, ⟨"other", 100⟩)]⟩, none)) :=
  acquire_lock_reclaim_iff ⟨[], [], 0, [], [(lockName, ⟨"other", 100⟩)]⟩
    "me" 101 50 ⟨"other", 100⟩ (by decide)

/-- Ranking order of the prune's window, `ROW_NUMBER() OVER (PARTITION BY
video_id ORDER BY timestamp DESC)` (database.py lines 260-263): `a` is
ranked before `b` when its timestamp is larger, ties completed
deterministically by scan order, i.e. ascending id, as SQLite's stable
small sort over the index scan produces (the SQL text itself fixes no
order among equal timestamps). -/
def rankedBefore (a b : HistoryRow) : Bool :=
  (b.timestamp < a.timestamp) || (a.timestamp == b.timestamp && a.id < b.id)

/-- The `rn` value `ROW_NUMBER()` assigns to `r` within the partition
`mine`: one plus the number of partition rows ranked before it. -/
def rowNumber (mine : List HistoryRow) (r : HistoryRow) : Nat :=
  (mine.filter (fun s => rankedBefore s r)).length + 1

/-- Model of `Database.save_video` (database.py lines 217-272), one
transaction: upsert the `videos` row (`published_at =
COALESCE(EXCLUDED.published_at, videos.published_at)`, so only a SQL
`NULL` — Python `None` — preserves the stored value), append the
`history` row, and delete the partition rows whose `rn` exceeds 100. -/
def save_video (st : Storage) (video_id title : String) (view_count timestamp : Int)
    (published_at : Option String) : Storage :=
  let videos' :=
    match findAssoc st.videos video_id with
    | none => st.videos ++ [(video_id, ⟨title, view_count, timestamp, published_at⟩)]
    | some old =>
      mapAssoc st.videos video_id
        (fun _ => ⟨title, view_count, timestamp, published_at.or old.published_at⟩)
  let newRow : HistoryRow := ⟨st.nextHistoryId, video_id, timestamp, view_count⟩
  let history₁ := st.history ++ [newRow]
  let mine := history₁.filter (fun r => r.video_id = video_id)
  let history₂ := history₁.filter
    (fun r => !(r.video_id = video_id && rowNumber mine r > 100))
  { st with
    videos := videos',
    history := history₂,
    nextHistoryId := st.nextHistoryId + 1 }

/-- Model of `Database.set_metadata` (database.py lines 323-335):
last-write-wins upsert on the `metadata` table. -/
def set_metadata (st : Storage) (key value : String) : Storage :=
  { st with metadata := setAssoc st.metadata key value }

/-- C6 evaluation at the failing input: an item stored with published-at
`"2020-01-01T00:00:00Z"` is saved again with the empty string as
published-at (exactly what `fetch_all_videos` produces when the field is
missing from the API response); the stored value is overwritten with `""`
instead of being preserved — `COALESCE` guards only SQL `NULL`, not the
empty string — while a `None` write does preserve it. -/
theorem save_video_empty_published_at_overwrites :
    (findAssoc (save_video
        ⟨[("v1", ⟨"T", 5, 10, some "2020-01-01T00:00:00Z"⟩)], [], 1, [], []⟩
        "v1" "T" 6 11 (some "")).videos "v1").map Video.published_at =
      some (some "") ∧
    (findAssoc (save_video
        ⟨[("v1", ⟨"T", 5, 10, some "2020-01-01T00:00:00Z"⟩)], [], 1, [], []⟩
        "v1" "T" 6 11 none).videos "v1").map Video.published_at =
      some (some "2020-01-01T00:00:00Z") := by decide

theorem rankedBefore_irrefl (a : HistoryRow) : rankedBefore a a = false := by
  simp [rankedBefore]

theorem rankedBefore_trans (a b c : HistoryRow) (hab : rankedBefore a b = true)
    (hbc : rankedBefore b c = true) : rankedBefore a c = true := by
  simp only [rankedBefore, Bool.or_eq_true, Bool.and_eq_true, decide_eq_true_eq,
    beq_iff_eq] at hab hbc ⊢
  omega

theorem rankedBefore_total (a b : HistoryRow) (hid : a.id ≠ b.id) :
    rankedBefore a b = true ∨ rankedBefore b a = true := by
  simp only [rankedBefore, Bool.or_eq_true, Bool.and_eq_true, decide_eq_true_eq,
    beq_iff_eq]
  omega

/-- The `ROW_NUMBER` value over a duplicate-free partition, phrased as a
`Finset` cardinality. -/
theorem rowNumber_eq_card (mine : List HistoryRow) (hnd : mine.Nodup) (r : HistoryRow) :
    rowNumber mine r =
      (mine.toFinset.filter (fun s => rankedBefore s r = true)).card + 1 := by
  unfold rowNumber
  have h1 : (mine.filter (fun s => rankedBefore s r)).toFinset =
      mine.toFinset.filter (fun s => rankedBefore s r = true) := by
    rw [List.toFinset_filter]
  rw [← h1, List.toFinset_card_of_nodup (hnd.filter _)]

/-- `ROW_NUMBER` values over a partition with strictly increasing ids are
exactly `1, ..., n`, so at most `N` of them are `≤ N`: the prune's keep
set has size `min n N`. -/
theorem length_filter_rowNumber_le (mine : List HistoryRow)
    (hP : mine.Pairwise (fun a b => a.id < b.id)) (N : Nat) :
    (mine.filter (fun r => rowNumber mine r ≤ N)).length = min mine.length N := by
  have hnd : mine.Nodup :=
    hP.imp (fun h => by intro he; subst he; exact lt_irrefl _ h)
  have hid2 : ∀ a ∈ mine, ∀ b ∈ mine, a ≠ b → a.id ≠ b.id := by
    have hpid : mine.Pairwise (fun a b => a.id ≠ b.id) :=
      hP.imp (fun h => Nat.ne_of_lt h)
    intro a ha b hb hne
    exact hpid.forall (fun x y h => h.symm) ha hb hne
  classical
  set M := mine.toFinset with hM
  set rnF : HistoryRow → Nat :=
    fun r => (M.filter (fun s => rankedBefore s r = true)).card + 1 with hrnF
  have hrow : ∀ r, rowNumber mine r = rnF r := fun r => rowNumber_eq_card mine hnd r
  have hmono : ∀ a ∈ M, ∀ b ∈ M, rankedBefore a b = true → rnF a < rnF b := by
    intro a ha b hb hab
    have hsub : M.filter (fun s => rankedBefore s a = true) ⊆
        M.filter (fun s => rankedBefore s b = true) := by
      intro s hs
      rw [Finset.mem_filter] at hs ⊢
      exact ⟨hs.1, rankedBefore_trans s a b hs.2 hab⟩
    have hss : M.filter (fun s => rankedBefore s a = true) ⊂
        M.filter (fun s => rankedBefore s b = true) := by
      refine ⟨hsub, fun hrev => ?_⟩
      have hbmem : a ∈ M.filter (fun s => rankedBefore s b = true) :=
        Finset.mem_filter.mpr ⟨ha, hab⟩
      have := Finset.mem_filter.mp (hrev hbmem)
      rw [rankedBefore_irrefl a] at this
      exact absurd this.2 (by simp)
    simpa [hrnF] using Nat.add_lt_add_right (Finset.card_lt_card hss) 1
  have hinj : Set.InjOn rnF M := by
    intro a ha b hb he
    by_contra hne2
    have hamem : a ∈ mine := List.mem_toFinset.mp ha
    have hbmem : b ∈ mine := List.mem_toFinset.mp hb
    rcases rankedBefore_total a b (hid2 a hamem b hbmem hne2) with h | h
    · exact absurd he (Nat.ne_of_lt (hmono a ha b hb h))
    · exact absurd he.symm (Nat.ne_of_lt (hmono b hb a ha h))
  have hbound : ∀ a ∈ M, 1 ≤ rnF a ∧ rnF a ≤ M.card := by
    intro a ha
    refine ⟨by simp [hrnF], ?_⟩
    have hsub : M.filter (fun s => rankedBefore s a = true) ⊆ M.erase a := by
      intro s hs
      rw [Finset.mem_filter] at hs
      refine Finset.mem_erase.mpr ⟨?_, hs.1⟩
      intro he
      subst he
      rw [rankedBefore_irrefl s] at hs
      exact absurd hs.2 (by simp)
    have h1 := Finset.card_le_card hsub
    rw [Finset.card_erase_of_mem ha] at h1
    have h2 : 1 ≤ M.card := Finset.card_pos.mpr ⟨a, ha⟩
    simp only [hrnF]
    omega
  have himage : M.image rnF ⊆ Finset.Icc 1 M.card := by
    intro n hn
    obtain ⟨a, ha, rfl⟩ := Finset.mem_image.mp hn
    exact Finset.mem_Icc.mpr (hbound a ha)
  have himeq : M.image rnF = Finset.Icc 1 M.card := by
    refine Finset.eq_of_subset_of_card_le himage ?_
    rw [Nat.card_Icc, Finset.card_image_of_injOn hinj]
    omega
  have hlhs : (mine.filter (fun r => rowNumber mine r ≤ N)).length =
      (M.filter (fun r => rnF r ≤ N)).card := by
    have hcongr : mine.filter (fun r => rowNumber mine r ≤ N) =
        mine.filter (fun r => rnF r ≤ N) := by
      apply List.filter_congr
      intro r _
      rw [hrow r]
    rw [hcongr]
    have h1 : (mine.filter (fun r => rnF r ≤ N)).toFinset =
        M.filter (fun r => rnF r ≤ N) := by
      rw [hM, List.toFinset_filter]
      apply Finset.filter_congr
      intro r _
      simp
    rw [← h1, List.toFinset_card_of_nodup (hnd.filter _)]
  have hfilter_img : (M.filter (fun r => rnF r ≤ N)).card =
      ((M.image rnF).filter (fun n => n ≤ N)).card := by
    rw [Finset.filter_image]
    rw [Finset.card_image_of_injOn (hinj.mono (by
      intro x hx
      exact Finset.mem_coe.mpr (Finset.mem_of_mem_filter x (Finset.mem_coe.mp hx))))]
  have hicc : (Finset.Icc 1 M.card).filter (fun n => n ≤ N) =
      Finset.Icc 1 (min M.card N) := by
    ext k
    simp only [Finset.mem_filter, Finset.mem_Icc]
    omega
  rw [hlhs, hfilter_img, himeq, hicc, Nat.card_Icc,
    show M.card = mine.length from List.toFinset_card_of_nodup hnd]
  omega

/-- Strictly increasing ids give distinct ids for distinct rows. -/
theorem pairwise_ids_ne (mine : List HistoryRow)
    (hP : mine.Pairwise (fun a b => a.id < b.id)) :
    ∀ a ∈ mine, ∀ b ∈ mine, a ≠ b → a.id ≠ b.id := by
  have hpid : mine.Pairwise (fun a b => a.id ≠ b.id) :=
    hP.imp (fun h => Nat.ne_of_lt h)
  intro a ha b hb hne
  exact hpid.forall (fun x y h => h.symm) ha hb hne

/-- `ROW_NUMBER` is strictly monotone along `rankedBefore` within a
partition with strictly increasing ids. -/
theorem rowNumber_lt_of_rankedBefore (mine : List HistoryRow)
    (hP : mine.Pairwise (fun a b => a.id < b.id)) (a b : HistoryRow)
    (ha : a ∈ mine) (hab : rankedBefore a b = true) :
    rowNumber mine a < rowNumber mine b := by
  have hnd : mine.Nodup :=
    hP.imp (fun h => by intro he; subst he; exact lt_irrefl _ h)
  rw [rowNumber_eq_card mine hnd a, rowNumber_eq_card mine hnd b]
  have hsub : mine.toFinset.filter (fun s => rankedBefore s a = true) ⊆
      mine.toFinset.filter (fun s => rankedBefore s b = true) := by
    intro s hs
    rw [Finset.mem_filter] at hs ⊢
    exact ⟨hs.1, rankedBefore_trans s a b hs.2 hab⟩
  have hss : mine.toFinset.filter (fun s => rankedBefore s a = true) ⊂
      mine.toFinset.filter (fun s => rankedBefore s b = true) := by
    refine ⟨hsub, fun hrev => ?_⟩
    have hbmem : a ∈ mine.toFinset.filter (fun s => rankedBefore s b = true) :=
      Finset.mem_filter.mpr ⟨List.mem_toFinset.mpr ha, hab⟩
    have := Finset.mem_filter.mp (hrev hbmem)
    rw [rankedBefore_irrefl a] at this
    exact absurd this.2 (by simp)
  exact Nat.add_lt_add_right (Finset.card_lt_card hss) 1

/-- Well-formedness of a storage state: history ids strictly increase in
insertion order and stay below the autoincrement counter.  Every state
reachable from an empty database through the model operations satisfies
this. -/
def Storage.WF (st : Storage) : Prop :=
  st.history.Pairwise (fun a b => a.id < b.id) ∧
  ∀ r ∈ st.history, r.id < st.nextHistoryId

instance (st : Storage) : Decidable st.WF := by unfold Storage.WF; infer_instance

/-- C2 (amended): in a well-formed state, one `save_video` (insert and
prune in the same transaction) leaves for the saved identifier exactly
`min n 100` of the `n` partition rows present after the insert — hence at
most 100 — and the retained set consists of the rows ranked most recent
by timestamp with ties completed by insertion order in favour of the
earlier-inserted row: every retained row is `rankedBefore` every dropped
one, and nothing is invented (retained rows come from the post-insert
partition, rows of other identifiers are untouched). -/
theorem save_video_history_retention (st : Storage) (hwf : Storage.WF st)
    (vid title : String) (vc ts : Int) (pa : Option String) :
    (((save_video st vid title vc ts pa).history.filter
        (fun r => r.video_id = vid)).length =
      min ((st.history ++ [(⟨st.nextHistoryId, vid, ts, vc⟩ : HistoryRow)]).filter
        (fun r => r.video_id = vid)).length 100) ∧
    ((save_video st vid title vc ts pa).history.filter
        (fun r => r.video_id = vid)).length ≤ 100 ∧
    (∀ r ∈ (st.history ++ [(⟨st.nextHistoryId, vid, ts, vc⟩ : HistoryRow)]).filter
        (fun r => r.video_id = vid),
      r ∉ (save_video st vid title vc ts pa).history →
      ∀ s ∈ (save_video st vid title vc ts pa).history.filter
        (fun r => r.video_id = vid),
      rankedBefore s r = true) ∧
    (∀ s ∈ (save_video st vid title vc ts pa).history,
      s ∈ st.history ++ [(⟨st.nextHistoryId, vid, ts, vc⟩ : HistoryRow)]) := by
  obtain ⟨hP, hlt⟩ := hwf
  set new : HistoryRow := ⟨st.nextHistoryId, vid, ts, vc⟩ with hnew
  set h1 : List HistoryRow := st.history ++ [new] with hh1
  set mine : List HistoryRow := h1.filter (fun r => r.video_id = vid) with hmine
  have hhist : (save_video st vid title vc ts pa).history =
      h1.filter (fun r => !(decide (r.video_id = vid) && decide (rowNumber mine r > 100))) :=
    rfl
  have hP1 : h1.Pairwise (fun a b => a.id < b.id) := by
    rw [hh1, List.pairwise_append]
    exact ⟨hP, List.pairwise_singleton _ _, by
      intro a ha b hb
      rw [List.mem_singleton] at hb
      subst hb
      exact hlt a ha⟩
  have hPmine : mine.Pairwise (fun a b => a.id < b.id) :=
    hP1.sublist (List.filter_sublist h1)
  have hkept : (save_video st vid title vc ts pa).history.filter
      (fun r => r.video_id = vid) =
      mine.filter (fun r => rowNumber mine r ≤ 100) := by
    rw [hhist, hmine, List.filter_filter, List.filter_filter]
    apply List.filter_congr
    intro r _
    by_cases hv : r.video_id = vid
    · by_cases hrn : rowNumber (List.filter (fun r => decide (r.video_id = vid)) h1) r ≤ 100
      · simp [hv, hrn, Nat.not_lt.mpr hrn]
      · simp [hv, hrn, Nat.lt_of_not_le hrn]
    · simp [hv]
  refine ⟨?_, ?_, ?_, ?_⟩
  · rw [hkept]
    exact length_filter_rowNumber_le mine hPmine 100
  · rw [hkept, length_filter_rowNumber_le mine hPmine 100]
    omega
  · intro r hr hrdrop s hs
    rw [hkept] at hs
    have hsmem := List.mem_filter.mp hs
    have hsmine : s ∈ mine := hsmem.1
    have hsrn : rowNumber mine s ≤ 100 := by simpa using hsmem.2
    have hrmine : r ∈ mine := by rw [hmine]; exact hr
    have hrh1 : r ∈ h1 := List.mem_of_mem_filter hrmine
    have hrvid : r.video_id = vid := by
      have := (List.mem_filter.mp hrmine).2
      simpa using this
    have hrrn : rowNumber mine r > 100 := by
      by_contra hle
      apply hrdrop
      rw [hhist]
      refine List.mem_filter.mpr ⟨hrh1, ?_⟩
      simp [hrvid, hle]
    have hsn : s ≠ r := by
      intro he
      rw [he] at hsrn
      omega
    rcases rankedBefore_total s r
        (pairwise_ids_ne mine hPmine s hsmine r hrmine hsn) with h | h
    · exact h
    · have := rowNumber_lt_of_rankedBefore mine hPmine r s hrmine h
      omega
  · intro s hs
    rw [hhist] at hs
    exact List.mem_of_mem_filter hs

/-- Witness for `save_video_history_retention` at the empty storage. -/
theorem save_video_history_retention_witness :
    Storage.WF ⟨[], [], 0, [], []⟩ ∧
    ((save_video ⟨[], [], 0, [], []⟩ "v" "T" 1 5 none).history.filter
        (fun r => r.video_id = "v")).length ≤ 100 :=
  ⟨by decide,
    (save_video_history_retention ⟨[], [], 0, [], []⟩ (by decide) "v" "T" 1 5 none).2.1⟩

/-- A state holding 100 history rows for `"v"`, ids 1..100, all with
timestamp 0. -/
def tieStorage : Storage :=
  ⟨[("v", ⟨"T", 0, 0, none⟩)],
    (List.range 100).map (fun i => ⟨i + 1, "v", 0, (i : Int)⟩), 101, [], []⟩

set_option maxRecDepth 10000 in
/-- C2 counterexample to the stated tie-breaking: inserting a 101st row
for `"v"` whose timestamp ties the 100 existing rows drops the
just-inserted row (id 101, the newest by insertion) and retains id 1 (the
oldest), while the claim's "ties broken by insertion order, oldest
dropped first" demands the opposite. -/
theorem save_video_tie_drops_newest :
    ((save_video tieStorage "v" "T" 100 0 none).history.map (fun r => r.id) =
      (List.range 100).map (fun i => i + 1)) ∧
    (⟨101, "v", 0, 100⟩ : HistoryRow) ∉ (save_video tieStorage "v" "T" 100 0 none).history ∧
    (⟨1, "v", 0, 0⟩ : HistoryRow) ∈ (save_video tieStorage "v" "T" 100 0 none).history := by
  decide

/-! ### Tracker model (`tracker.py`)

`fetch_all_videos` produces a list of Python dicts with exactly the keys
`videoId`, `title`, `viewCount`, `publishedAt` (tracker.py lines 78-85);
`VideoDict` is that shape.  `publishedAt` is always a string there — the
empty string when the API omitted the field. -/

/-- One element of the list built by `fetch_all_videos`. -/
structure VideoDict where
  videoId : String
  title : String
  viewCount : Int
  publishedAt : String
deriving DecidableEq, Repr

/-- Model of `TinyDeskTracker.update_historical_data` (tracker.py lines
105-124): the timestamp is `int(time.time())` captured once before the
loop (line 107) and passed to every `save_video`, then the two metadata
keys are written.  `video.get("publishedAt")` on a dict built by
`fetch_all_videos` is always a string, hence `some v.publishedAt`. -/
def update_historical_data (st : Storage) (videos : List VideoDict) (timestamp : Int) :
    Storage :=
  let st₁ := videos.foldl
    (fun s v => save_video s v.videoId v.title v.viewCount timestamp (some v.publishedAt)) st
  let st₂ := set_metadata st₁ "lastUpdate" (toString timestamp)
  set_metadata st₂ "totalVideos" (toString videos.length)

/-- Model of the body of `TinyDeskTracker.update` inside its outer
`try` (tracker.py lines 128-138): acquire the lock; if denied return; on
success run fetch-then-persist with the lock released in the `finally`
whatever happens.  `fetch` stands for `fetch_all_videos` (its network
errors propagate into the coordinator, hence `Except`), and `persist` for
`update_historical_data` generalized to fail at any point with any
intermediate state (its second component is the exception escaping the
inner `try`, if any). -/
def update_attempt (st : Storage) (owner : String) (now ttl : Int)
    (fetch : Except String (List VideoDict))
    (persist : Storage → List VideoDict → Storage × Option String) :
    Storage × Option String :=
  match acquire_update_lock st owner now ttl with
  | (st₁, none) => (st₁, none)
  | (st₁, some handle) =>
    let res :=
      match fetch with
      | Except.error e => (st₁, some e)
      | Except.ok videos => persist st₁ videos
    (release_update_lock res.1 handle, res.2)

/-- Model of `TinyDeskTracker.update` (tracker.py lines 126-146): the
outer `except Exception` swallows whatever escaped the inner
`try/finally` (it is only printed), so the caller observes storage
effects and never an exception. -/
def update (st : Storage) (owner : String) (now ttl : Int)
    (fetch : Except String (List VideoDict))
    (persist : Storage → List VideoDict → Storage × Option String) : Storage :=
  (update_attempt st owner now ttl fetch persist).1

/-- A successful acquisition hands back the caller's owner token, and
every lock-table row keyed by the lock name then carries that owner. -/
theorem acquire_lock_success_owner (st : Storage) (owner : String) (now ttl : Int)
    (st₁ : Storage) (h : LockHandle)
    (hacq : acquire_update_lock st owner now ttl = (st₁, some h)) :
    h = ⟨owner⟩ ∧ ∀ p ∈ st₁.locks, p.1 = lockName → p.2.owner = owner := by
  unfold acquire_update_lock at hacq
  cases hl : findAssoc st.locks lockName with
  | none =>
    rw [hl] at hacq
    simp only [Prod.mk.injEq, Option.some.injEq] at hacq
    obtain ⟨hst, hh⟩ := hacq
    subst hh
    refine ⟨rfl, ?_⟩
    intro p hp hk
    rw [← hst] at hp
    simp only at hp
    rcases List.mem_append.mp hp with hp | hp
    · exact absurd hk ((findAssoc_eq_none_iff _ _).mp hl p hp)
    · rw [List.mem_singleton] at hp
      subst hp
      rfl
  | some row =>
    rw [hl] at hacq
    dsimp only at hacq
    by_cases hexp : row.expires_at < now
    · rw [if_pos hexp] at hacq
      simp only [Prod.mk.injEq, Option.some.injEq] at hacq
      obtain ⟨hst, hh⟩ := hacq
      subst hh
      refine ⟨rfl, ?_⟩
      intro p hp hk
      rw [← hst] at hp
      simp only at hp
      obtain ⟨q, hq, hpq⟩ := List.mem_map.mp hp
      by_cases hqk : q.1 = lockName
      · rw [if_pos hqk] at hpq
        rw [← hpq]
      · rw [if_neg hqk] at hpq
        rw [← hpq] at hk
        exact absurd hk hqk
    · rw [if_neg hexp] at hacq
      simp at hacq

/-- Releasing with a handle whose owner matches every lock-name row
deletes them all. -/
theorem release_clears (st : Storage) (h : LockHandle)
    (hall : ∀ p ∈ st.locks, p.1 = lockName → p.2.owner = h.owner) :
    findAssoc (release_update_lock st h).locks lockName = none := by
  unfold release_update_lock
  by_cases ho : h.owner ≠ ""
  · rw [if_pos ho]
    apply (findAssoc_eq_none_iff _ _).mpr
    intro p hp hk
    obtain ⟨hpm, hpf⟩ := List.mem_filter.mp hp
    have := hall p hpm hk
    simp [hk, this] at hpf
  · rw [if_neg ho]
    apply (findAssoc_eq_none_iff _ _).mpr
    intro p hp hk
    obtain ⟨hpm, hpf⟩ := List.mem_filter.mp hp
    simp [hk] at hpf

/-- C1: whenever `update()` acquires the lock, then for every outcome of
fetching (including a raised exception, `Except.error`) and every
behaviour of persisting (any resulting state and any raised exception,
provided persisting does not itself write the lock table, as
`update_historical_data` never does), `update` returns a plain storage
state — the inner exception is caught by the outer `except` and never
reaches the caller — and the lock row is gone from that state: the
`finally` released it on every exit path. -/
theorem update_catches_and_releases (st : Storage) (owner : String) (now ttl : Int)
    (fetch : Except String (List VideoDict))
    (persist : Storage → List VideoDict → Storage × Option String)
    (hpersist : ∀ s vids, ((persist s vids).1).locks = s.locks)
    (hacq : (acquire_update_lock st owner now ttl).2.isSome) :
    update st owner now ttl fetch persist =
      (update_attempt st owner now ttl fetch persist).1 ∧
    findAssoc (update st owner now ttl fetch persist).locks lockName = none := by
  refine ⟨rfl, ?_⟩
  obtain ⟨st₁, h, hacq2⟩ : ∃ st₁ h, acquire_update_lock st owner now ttl = (st₁, some h) := by
    rcases he : acquire_update_lock st owner now ttl with ⟨st₁, ho⟩
    cases ho with
    | none => rw [he] at hacq; exact absurd hacq (by simp)
    | some h => exact ⟨st₁, h, rfl⟩
  obtain ⟨hh, hall⟩ := acquire_lock_success_owner st owner now ttl st₁ h hacq2
  subst hh
  unfold update update_attempt
  rw [hacq2]
  cases fetch with
  | error e =>
    exact release_clears st₁ ⟨owner⟩ hall
  | ok vids =>
    apply release_clears
    intro p hp hk
    rw [hpersist st₁ vids] at hp
    exact hall p hp hk

/-- Witness for `update_catches_and_releases`: empty storage, a failing
fetch, and a persist stub; the lock row is gone afterwards. -/
theorem update_catches_and_releases_witness :
    update ⟨[], [], 0, [], []⟩ "host" 10 50 (Except.error "network down")
        (fun s _ => (s, some "boom")) =
      (update_attempt ⟨[], [], 0, [], []⟩ "host" 10 50 (Except.error "network down")
        (fun s _ => (s, some "boom"))).1 ∧
    findAssoc (update ⟨[], [], 0, [], []⟩ "host" 10 50 (Except.error "network down")
        (fun s _ => (s, some "boom"))).locks lockName = none :=
  update_catches_and_releases ⟨[], [], 0, [], []⟩ "host" 10 50 (Except.error "network down")
    (fun s _ => (s, some "boom")) (fun _ _ => rfl) (by decide)

/-- C4: when lock acquisition is denied, `update()` leaves storage
completely unchanged — zero writes to the item, history, metadata (and
lock) tables — and returns normally (`update` yields a state, the denied
branch carries no exception). -/
theorem update_denied_writes_nothing (st : Storage) (owner : String) (now ttl : Int)
    (fetch : Except String (List VideoDict))
    (persist : Storage → List VideoDict → Storage × Option String)
    (hden : (acquire_update_lock st owner now ttl).2 = none) :
    update st owner now ttl fetch persist = st ∧
    update_attempt st owner now ttl fetch persist = (st, none) := by
  have hst : acquire_update_lock st owner now ttl = (st, none) := by
    cases hl : findAssoc st.locks lockName with
    | none =>
      have hsucc : (acquire_update_lock st owner now ttl).2 = some ⟨owner⟩ := by
        unfold acquire_update_lock
        simp [hl]
      rw [hden] at hsucc
      exact absurd hsucc (by simp)
    | some row =>
      obtain ⟨hiff, _, hfail⟩ := acquire_lock_reclaim_iff st owner now ttl row hl
      apply hfail
      intro hexp
      have hsome := hiff.mpr hexp
      rw [hden] at hsome
      exact absurd hsome (by simp)
  have : update_attempt st owner now ttl fetch persist = (st, none) := by
    unfold update_attempt
    rw [hst]
  exact ⟨by unfold update; rw [this], this⟩

/-- Witness for `update_denied_writes_nothing`: a live lock held by
another instance; `update` leaves the state untouched. -/
theorem update_denied_writes_nothing_witness :
    update ⟨[], [], 0, [], [(lockName, ⟨"other", 1000⟩)]⟩ "host" 10 50
        (Except.ok []) (fun s _ => (s, none)) =
      ⟨[], [], 0, [], [(lockName, ⟨"other", 1000⟩)]⟩ ∧
    update_attempt ⟨[], [], 0, [], [(lockName, ⟨"other", 1000⟩)]⟩ "host" 10 50
        (Except.ok []) (fun s _ => (s, none)) =
      (⟨[], [], 0, [], [(lockName, ⟨"other", 1000⟩)]⟩, none) :=
  update_denied_writes_nothing ⟨[], [], 0, [], [(lockName, ⟨"other", 1000⟩)]⟩
    "host" 10 50 (Except.ok []) (fun s _ => (s, none)) (by decide)

/-- One `save_video` bumps the autoincrement by one, and every row it
leaves whose id is at least `base` carries timestamp `ts`, provided that
already held before and `base` does not exceed the counter. -/
theorem save_video_next_and_timestamps (s : Storage) (vid title : String) (vc ts : Int)
    (pa : Option String) (base : Nat)
    (hold : ∀ r ∈ s.history, base ≤ r.id → r.timestamp = ts) :
    (save_video s vid title vc ts pa).nextHistoryId = s.nextHistoryId + 1 ∧
    ∀ r ∈ (save_video s vid title vc ts pa).history, base ≤ r.id → r.timestamp = ts := by
  refine ⟨rfl, ?_⟩
  intro r hr hbr
  have hhist : (save_video s vid title vc ts pa).history =
      (s.history ++ [(⟨s.nextHistoryId, vid, ts, vc⟩ : HistoryRow)]).filter
        (fun r => !(decide (r.video_id = vid) &&
          decide (rowNumber ((s.history ++ [(⟨s.nextHistoryId, vid, ts, vc⟩ : HistoryRow)]).filter
            (fun r => r.video_id = vid)) r > 100))) := rfl
  rw [hhist] at hr
  have hr1 := List.mem_of_mem_filter hr
  rcases List.mem_append.mp hr1 with h | h
  · exact hold r h hbr
  · rw [List.mem_singleton] at h
    subst h
    rfl

/-- Folding `save_video` over a batch at one shared timestamp advances
the counter by the batch size and stamps every surviving row with id at
least `base` with that timestamp. -/
theorem foldl_save_spec (ts : Int) :
    ∀ (videos : List VideoDict) (s : Storage) (base : Nat),
      (∀ r ∈ s.history, base ≤ r.id → r.timestamp = ts) →
      (videos.foldl
        (fun a v => save_video a v.videoId v.title v.viewCount ts (some v.publishedAt))
        s).nextHistoryId = s.nextHistoryId + videos.length ∧
      ∀ r ∈ (videos.foldl
        (fun a v => save_video a v.videoId v.title v.viewCount ts (some v.publishedAt))
        s).history, base ≤ r.id → r.timestamp = ts := by
  intro videos
  induction videos with
  | nil =>
    intro s base hold
    exact ⟨by simp, hold⟩
  | cons v vs ih =>
    intro s base hold
    rw [List.foldl_cons]
    obtain ⟨hn, hh⟩ := save_video_next_and_timestamps s v.videoId v.title v.viewCount ts
      (some v.publishedAt) base hold
    obtain ⟨hn2, hh2⟩ := ih (save_video s v.videoId v.title v.viewCount ts
      (some v.publishedAt)) base hh
    refine ⟨?_, hh2⟩
    rw [hn2, hn, List.length_cons]
    omega

/-- C5: in a well-formed state, one persistence pass over a batch of `n`
items stamps every history row it writes (every row with an id allocated
during this cycle) with the single shared timestamp captured once at the
start (`int(time.time())`, tracker.py line 107 — the model's `ts`
parameter), allocates exactly `n` ids, and afterwards the metadata key
`lastUpdate` holds that shared timestamp and `totalVideos` holds `n`. -/
theorem update_historical_data_spec (st : Storage) (hwf : Storage.WF st)
    (videos : List VideoDict) (ts : Int) :
    (∀ r ∈ (update_historical_data st videos ts).history,
      st.nextHistoryId ≤ r.id → r.timestamp = ts) ∧
    (update_historical_data st videos ts).nextHistoryId =
      st.nextHistoryId + videos.length ∧
    findAssoc (update_historical_data st videos ts).metadata "lastUpdate" =
      some (toString ts) ∧
    findAssoc (update_historical_data st videos ts).metadata "totalVideos" =
      some (toString videos.length) := by
  have hold : ∀ r ∈ st.history, st.nextHistoryId ≤ r.id → r.timestamp = ts := by
    intro r hr hge
    exact absurd (hwf.2 r hr) (by omega)
  obtain ⟨hn, hh⟩ := foldl_save_spec ts videos st st.nextHistoryId hold
  have hhist : (update_historical_data st videos ts).history =
      (videos.foldl
        (fun a v => save_video a v.videoId v.title v.viewCount ts (some v.publishedAt))
        st).history := rfl
  have hnext : (update_historical_data st videos ts).nextHistoryId =
      (videos.foldl
        (fun a v => save_video a v.videoId v.title v.viewCount ts (some v.publishedAt))
        st).nextHistoryId := rfl
  have hmeta : (update_historical_data st videos ts).metadata =
      setAssoc (setAssoc (videos.foldl
        (fun a v => save_video a v.videoId v.title v.viewCount ts (some v.publishedAt))
        st).metadata "lastUpdate" (toString ts)) "totalVideos" (toString videos.length) :=
    rfl
  refine ⟨?_, ?_, ?_, ?_⟩
  · rw [hhist]; exact hh
  · rw [hnext]; exact hn
  · rw [hmeta, findAssoc_setAssoc_other _ _ _ _ (by decide), findAssoc_setAssoc_self]
  · rw [hmeta, findAssoc_setAssoc_self]

/-- Witness for `update_historical_data_spec`: two items saved into the
empty storage at timestamp 42. -/
theorem update_historical_data_spec_witness :
    Storage.WF ⟨[], [], 0, [], []⟩ ∧
    findAssoc (update_historical_data ⟨[], [], 0, [], []⟩
        [⟨"v1", "A", 100, "2020-01-01"⟩, ⟨"v2", "B", 200, "2020-01-02"⟩] 42).metadata
      "lastUpdate" = some "42" ∧
    findAssoc (update_historical_data ⟨[], [], 0, [], []⟩
        [⟨"v1", "A", 100, "2020-01-01"⟩, ⟨"v2", "B", 200, "2020-01-02"⟩] 42).metadata
      "totalVideos" = some "2" :=
  ⟨by decide,
    (update_historical_data_spec ⟨[], [], 0, [], []⟩ (by decide)
      [⟨"v1", "A", 100, "2020-01-01"⟩, ⟨"v2", "B", 200, "2020-01-02"⟩] 42).2.2.1,
    (update_historical_data_spec ⟨[], [], 0, [], []⟩ (by decide)
      [⟨"v1", "A", 100, "2020-01-01"⟩, ⟨"v2", "B", 200, "2020-01-02"⟩] 42).2.2.2⟩

/-! ### Statistics ingestion (`tracker.py`, lines 74-85)

One item of a `videos.list` statistics response, with `Option` fields for
possibly-missing keys (a missing `snippet`/`statistics` object behaves
like all its keys missing, which the flattened fields capture).  The
`viewCount` value arrives as JSON string or number, so it is a `PyVal`
fed to Python's `int(...)`. -/

/-- A Python value that `int(...)` may be applied to here. -/
inductive PyVal where
  | int (n : Int)
  | str (s : String)
deriving DecidableEq, Repr

/-- Model of Python `int(v)` on the values at hand: identity on integers,
string parse (raising on malformed input, hence `Option`). -/
def pyToInt (v : PyVal) : Option Int :=
  match v with
  | .int n => some n
  | .str s => pyIntParse s

/-- One item of the statistics response. -/
structure StatsItem where
  id : Option String
  title : Option String
  publishedAt : Option String
  viewCount : Option PyVal
deriving DecidableEq, Repr

/-- Model of the loop body of `fetch_all_videos` over `stats_items`
(tracker.py lines 74-85): `snippet.get("title", "")` and
`snippet.get("publishedAt", "")` default to `""`,
`statistics.get("viewCount", 0)` defaults to `0` and is passed through
`int(...)` (raising on a malformed present value), and `item["id"]`
raises `KeyError` when absent; the dict literal evaluates `item["id"]`
before `int(...)`. -/
def processStatsItem (item : StatsItem) : Except String VideoDict :=
  let title := item.title.getD ""
  match item.id with
  | none => Except.error "KeyError: id"
  | some vid =>
    match pyToInt (item.viewCount.getD (PyVal.int 0)) with
    | none => Except.error "invalid literal for int()"
    | some vc =>
      Except.ok ⟨vid, title, vc, item.publishedAt.getD ""⟩

/-- Model of the whole `for item in stats_items` append loop: the first
exception aborts the batch (it propagates out of `fetch_all_videos`). -/
def processStatsItems (items : List StatsItem) : Except String (List VideoDict) :=
  items.mapM processStatsItem

/-- The video dict an item yields when it is processed successfully. -/
def itemDefaulted (it : StatsItem) : VideoDict :=
  ⟨it.id.getD "", it.title.getD "",
    (pyToInt (it.viewCount.getD (PyVal.int 0))).getD 0, it.publishedAt.getD ""⟩

/-- C10 (amended): a batch whose items all carry an id and a well-formed
(or absent) view count is processed without aborting, and missing fields
are defaulted — empty string for a missing title, zero for a missing
view count, empty string for a missing published-at. -/
theorem processStatsItems_defaults (items : List StatsItem)
    (h : ∀ it ∈ items, it.id.isSome ∧
      (pyToInt (it.viewCount.getD (PyVal.int 0))).isSome) :
    processStatsItems items = Except.ok (items.map itemDefaulted) ∧
    ∀ it ∈ items,
      (it.title = none → (itemDefaulted it).title = "") ∧
      (it.viewCount = none → (itemDefaulted it).viewCount = 0) ∧
      (it.publishedAt = none → (itemDefaulted it).publishedAt = "") := by
  constructor
  · induction items with
    | nil => rfl
    | cons it its ih =>
      obtain ⟨hid, hvc⟩ := h it (by simp)
      obtain ⟨vid, hvid⟩ := Option.isSome_iff_exists.mp hid
      obtain ⟨vc, hvcv⟩ := Option.isSome_iff_exists.mp hvc
      have hone : processStatsItem it = Except.ok (itemDefaulted it) := by
        unfold processStatsItem itemDefaulted
        rw [hvid, hvcv]
        simp [hvid, hvcv]
      have hrest := ih (fun x hx => h x (by simp [hx]))
      unfold processStatsItems at hrest ⊢
      rw [List.mapM_cons, hone, hrest]
      rfl
  · intro it _
    refine ⟨?_, ?_, ?_⟩
    · intro ht; simp [itemDefaulted, ht]
    · intro hv; simp [itemDefaulted, hv, pyToInt]
    · intro hp; simp [itemDefaulted, hp]

/-- Witness for `processStatsItems_defaults`: one complete item and one
item missing title, view count and published-at. -/
theorem processStatsItems_defaults_witness :
    (∀ it ∈ [(⟨some "a", some "T", some "2020", some (PyVal.str "123")⟩ : StatsItem),
        ⟨some "b", none, none, none⟩],
      it.id.isSome ∧ (pyToInt (it.viewCount.getD (PyVal.int 0))).isSome) ∧
    processStatsItems [(⟨some "a", some "T", some "2020", some (PyVal.str "123")⟩ : StatsItem),
        ⟨some "b", none, none, none⟩] =
      Except.ok [⟨"a", "T", 123, "2020"⟩, ⟨"b", "", 0, ""⟩] :=
  ⟨by decide,
    by
      have h := (processStatsItems_defaults
        [(⟨some "a", some "T", some "2020", some (PyVal.str "123")⟩ : StatsItem),
          ⟨some "b", none, none, none⟩] (by decide)).1
      rw [h]
      rfl⟩

/-- C10 counterexample: a present but malformed (non-integer) view count
aborts the whole batch with the `int(...)` exception, and a missing id
aborts it with `KeyError` — "malformed or missing fields never cause the
ingestor to abort processing of the batch" is false as stated. -/
theorem processStatsItems_malformed_aborts :
    processStatsItems [(⟨some "abc", none, none, some (PyVal.str "oops")⟩ : StatsItem)] =
      Except.error "invalid literal for int()" ∧
    processStatsItems [(⟨none, some "T", some "2020", some (PyVal.int 3)⟩ : StatsItem)] =
      Except.error "KeyError: id" := by
  constructor <;> rfl
